import Mathlib

/-!
Verification of the Hijri month-boundary resolution core of the
permissions-tracker application, as a shallow embedding.

Modelling conventions:
* A Gregorian calendar date is an integer day number (days since the epoch
  1970-01-01).  Stepping a `Date` by one day (`setDate(getDate() ± 1)` in the
  source) is `d ± 1`.
* `JS Date.prototype.getDay` (weekday index, 0 = Sunday .. 6 = Saturday) is
  `getDay d = (d + 4) % 7`, since day number 0 (1970-01-01) was a Thursday.
* The Gregorian→Hijri conversion oracle (the `Intl.DateTimeFormat`
  machinery wrapped by `toHijri` / `getHijriDate` in the source) is an
  abstract function `o : ℤ → Hijri`.
* The source's unbounded `while` loops are embedded with an explicit fuel
  argument returning `Option`: `some` results coincide with the source's
  behaviour whenever the source loop terminates within `fuel` iterations,
  and `none` means the loop was still running after `fuel` iterations.
-/

/-- A Hijri date as produced by the conversion oracle:
`{year, month, day}` components (`toHijri` in the unnamed core file,
`getHijriDate` in script.js, display-only month name omitted). -/
structure Hijri where
  year : ℤ
  month : ℤ
  day : ℤ
deriving DecidableEq

/-- The Hijri (year, month) pair an oracle assigns to a Gregorian day. -/
def monthOf (o : ℤ → Hijri) (d : ℤ) : ℤ × ℤ := ((o d).year, (o d).month)

/-- `findHijriMonthStart` from the unnamed core file: starting at `gregDate`,
step backward one day at a time while the Hijri day is `> 1`; return the date
reached.  The source loop is unbounded; `fuel` bounds the number of backward
steps, `none` meaning the loop had not finished after `fuel` steps. -/
def findHijriMonthStart (o : ℤ → Hijri) : ℕ → ℤ → Option ℤ
  | 0, d => if 1 < (o d).day then none else some d
  | fuel + 1, d =>
    if 1 < (o d).day then findHijriMonthStart o fuel (d - 1) else some d

/-- `findHijriMonthEnd` from the unnamed core file: starting at `monthStart`,
probe the next day; if its Hijri (year, month) differs from
`(hijriYear, hijriMonth)` stop and return the current date, else advance.
The source loop is `while (true)` with no cap; `fuel` bounds the number of
probes, `none` meaning the loop was still running after `fuel` probes. -/
def findHijriMonthEnd (o : ℤ → Hijri) (hijriYear hijriMonth : ℤ) :
    ℕ → ℤ → Option ℤ
  | 0, _ => none
  | fuel + 1, d =>
    if (o (d + 1)).year ≠ hijriYear ∨ (o (d + 1)).month ≠ hijriMonth then
      some d
    else
      findHijriMonthEnd o hijriYear hijriMonth fuel (d + 1)

/-- JS `Date.prototype.getDay`: weekday index 0-6 with 0 = Sunday, for a
date given as a day number (day 0 = 1970-01-01, a Thursday). -/
def getDay (d : ℤ) : ℤ := (d + 4).emod 7

/-- The workday-counting loop of `calculateWorkdays` in the unnamed core
file: iterate from `monthStartDate` to `monthEndDate` inclusive, counting the
days whose weekday index is not in `weekendDays`.  (The source function also
returns display-only weekday names and returns 0 when the cached month
boundaries are null; only the count over given boundaries is modelled.) -/
def calculateWorkdays (weekendDays : List ℤ) (monthStartDate monthEndDate : ℤ) : ℕ :=
  if _h : monthStartDate ≤ monthEndDate then
    (if weekendDays.contains (getDay monthStartDate) then 0 else 1) +
      calculateWorkdays weekendDays (monthStartDate + 1) monthEndDate
  else 0
termination_by (monthEndDate + 1 - monthStartDate).toNat
decreasing_by omega

/-- The resolved range of the current Hijri month, as computed in `init` of
the unnamed core file: cached `monthStartDate` / `monthEndDate` plus the
`hijriYear` / `hijriMonth` stored in the application state. -/
structure MonthRange where
  start : ℤ
  endD : ℤ
  hijriYear : ℤ
  hijriMonth : ℤ
deriving DecidableEq

/-- Month resolution as performed in `init` of the unnamed core file:
take today's Hijri (year, month), walk backward to the month start with
`findHijriMonthStart`, then forward to the month end with
`findHijriMonthEnd`.  `fuel` bounds each of the two source loops. -/
def resolveMonth (o : ℤ → Hijri) (fuel : ℕ) (today : ℤ) : Option MonthRange :=
  match findHijriMonthStart o fuel today with
  | none => none
  | some s =>
    match findHijriMonthEnd o (o today).year (o today).month fuel s with
    | none => none
    | some e => some ⟨s, e, (o today).year, (o today).month⟩

/-- The month-start search of `getHijriMonthGregorianRangeAndWorkdays` in
script.js: starting at today's date with today's Hijri `(year, month)`,
if the probed date is still in that Hijri month step backward unless its
Hijri day is 1; if the probe left the month, overshoot-correct by stepping
forward one day and stop.  `fuel` bounds the unbounded source loop. -/
def scriptFindStart (o : ℤ → Hijri) (year month : ℤ) : ℕ → ℤ → Option ℤ
  | 0, _ => none
  | fuel + 1, d =>
    if (o d).year = year ∧ (o d).month = month then
      if (o d).day = 1 then some d
      else scriptFindStart o year month fuel (d - 1)
    else some (d + 1)

/-- Well-formedness of a Gregorian→Hijri oracle: Hijri months are contiguous
runs of 29-30 consecutive Gregorian days, with days numbered 1, 2, ...
within each run. -/
structure GoodOracle (o : ℤ → Hijri) : Prop where
  day_pos : ∀ d, 1 ≤ (o d).day
  day_le : ∀ d, (o d).day ≤ 30
  day_one_iff : ∀ d, (o d).day = 1 ↔ monthOf o (d - 1) ≠ monthOf o d
  next_day : ∀ d, monthOf o (d + 1) = monthOf o d → (o (d + 1)).day = (o d).day + 1
  month_min : ∀ d, monthOf o (d - 1) ≠ monthOf o d → 29 ≤ (o (d - 1)).day
  convex : ∀ a b c, a ≤ b → b ≤ c → monthOf o a = monthOf o c →
    monthOf o b = monthOf o a

/-- A concrete well-formed oracle: every Hijri month lasts exactly 30 days,
day number `d` falling on day `d % 30 + 1` of month `d / 30` of year 1447. -/
def stdOracle : ℤ → Hijri :=
  fun d => ⟨1447, d / 30, d % 30 + 1⟩

/-- A concrete stub oracle with 29-day Hijri months: Gregorian day 0 is day 1
of Hijri month 9 of year 1447, which runs for exactly 29 days (0..28). -/
def oracle29 : ℤ → Hijri :=
  fun d => ⟨1447, 9 + d / 29, d % 29 + 1⟩

/-- A stub oracle that never advances the Hijri month: every Gregorian day
maps to day 5 of month 8 of year 1447. -/
def stuckOracle : ℤ → Hijri := fun _ => ⟨1447, 8, 5⟩

lemma stdOracle_good : GoodOracle stdOracle := by
  constructor
  · intro d; simp only [stdOracle]; omega
  · intro d; simp only [stdOracle]; omega
  · intro d; simp only [stdOracle, monthOf, ne_eq, Prod.mk.injEq, true_and]; omega
  · intro d h
    simp only [stdOracle, monthOf, Prod.mk.injEq, true_and] at h ⊢
    omega
  · intro d h
    simp only [stdOracle, monthOf, ne_eq, Prod.mk.injEq, true_and] at h ⊢
    omega
  · intro a b c hab hbc h
    simp only [stdOracle, monthOf, Prod.mk.injEq, true_and] at h ⊢
    omega

lemma oracle29_good : GoodOracle oracle29 := by
  constructor
  · intro d; simp only [oracle29]; omega
  · intro d; simp only [oracle29]; omega
  · intro d; simp only [oracle29, monthOf, ne_eq, Prod.mk.injEq, true_and]; omega
  · intro d h
    simp only [oracle29, monthOf, Prod.mk.injEq, true_and] at h ⊢
    omega
  · intro d h
    simp only [oracle29, monthOf, ne_eq, Prod.mk.injEq, true_and] at h ⊢
    omega
  · intro a b c hab hbc h
    simp only [oracle29, monthOf, Prod.mk.injEq, true_and] at h ⊢
    omega

lemma GoodOracle.prev_month {o : ℤ → Hijri} (h : GoodOracle o) (d : ℤ)
    (hd : 1 < (o d).day) : monthOf o (d - 1) = monthOf o d := by
  by_contra hc
  have := (h.day_one_iff d).mpr hc
  omega

lemma GoodOracle.prev_day {o : ℤ → Hijri} (h : GoodOracle o) (d : ℤ)
    (hd : 1 < (o d).day) : (o (d - 1)).day = (o d).day - 1 := by
  have hm := h.prev_month d hd
  have heq : d - 1 + 1 = d := by ring
  have := h.next_day (d - 1)
  rw [heq] at this
  have := this hm.symm
  omega

lemma findStart_spec {o : ℤ → Hijri} (h : GoodOracle o) :
    ∀ fuel : ℕ, ∀ d : ℤ, ((o d).day - 1).toNat ≤ fuel →
      findHijriMonthStart o fuel d = some (d - ((o d).day - 1)) ∧
      monthOf o (d - ((o d).day - 1)) = monthOf o d ∧
      (o (d - ((o d).day - 1))).day = 1 := by
  intro fuel
  induction fuel with
  | zero =>
    intro d hd
    have h1 := h.day_pos d
    have hday : (o d).day = 1 := by omega
    have hz : d - ((o d).day - 1) = d := by omega
    rw [hz]
    refine ⟨?_, rfl, hday⟩
    simp [findHijriMonthStart, hday]
  | succ n ih =>
    intro d hd
    by_cases hgt : 1 < (o d).day
    · have hm := h.prev_month d hgt
      have hdy := h.prev_day d hgt
      have hrec := ih (d - 1) (by omega)
      have he : (d - 1) - ((o (d - 1)).day - 1) = d - ((o d).day - 1) := by omega
      rw [he] at hrec
      refine ⟨?_, hrec.2.1.trans hm, hrec.2.2⟩
      simp only [findHijriMonthStart, if_pos hgt]
      exact hrec.1
    · have h1 := h.day_pos d
      have hday : (o d).day = 1 := by omega
      have hz : d - ((o d).day - 1) = d := by omega
      rw [hz]
      refine ⟨?_, rfl, hday⟩
      simp [findHijriMonthStart, hgt]

lemma findEnd_spec {o : ℤ → Hijri} (h : GoodOracle o) (y m : ℤ) :
    ∀ fuel : ℕ, ∀ d : ℤ, (o d).year = y → (o d).month = m →
      (31 - (o d).day).toNat ≤ fuel →
      ∃ e, findHijriMonthEnd o y m fuel d = some e ∧ d ≤ e ∧
        monthOf o (e + 1) ≠ (y, m) ∧
        ∀ x, d ≤ x → x ≤ e → monthOf o x = (y, m) := by
  intro fuel
  induction fuel with
  | zero =>
    intro d hy hm hf
    have h1 := h.day_le d
    omega
  | succ n ih =>
    intro d hy hm hf
    have hmd : monthOf o d = (y, m) := by simp [monthOf, hy, hm]
    by_cases hnext : monthOf o (d + 1) = (y, m)
    · have hday := h.next_day d (hnext.trans hmd.symm)
      have hle := h.day_le (d + 1)
      have hy1 : (o (d + 1)).year = y := congrArg Prod.fst hnext
      have hm1 : (o (d + 1)).month = m := congrArg Prod.snd hnext
      obtain ⟨e, he, hde, hend, hall⟩ := ih (d + 1) hy1 hm1 (by omega)
      refine ⟨e, ?_, by omega, hend, ?_⟩
      · simp only [findHijriMonthEnd, ne_eq, hy1, hm1, not_true_eq_false,
          or_self, if_false]
        exact he
      · intro x hdx hxe
        rcases eq_or_lt_of_le hdx with rfl | hlt
        · exact hmd
        · exact hall x (by omega) hxe
    · refine ⟨d, ?_, le_refl d, hnext, ?_⟩
      · have : (o (d + 1)).year ≠ y ∨ (o (d + 1)).month ≠ m := by
          by_contra hc
          push_neg at hc
          exact hnext (by simp [monthOf, hc.1, hc.2])
        simp only [findHijriMonthEnd, ne_eq]
        rw [if_pos]
        exact this
      · intro x hdx hxd
        have : x = d := le_antisymm hxd hdx
        rw [this]
        exact hmd

lemma day_add {o : ℤ → Hijri} (h : GoodOracle o) (d : ℤ) :
    ∀ k : ℕ, (∀ j : ℕ, j ≤ k → monthOf o (d + j) = monthOf o d) →
      (o (d + k)).day = (o d).day + k := by
  intro k
  induction k with
  | zero => intro _; simp
  | succ n ih =>
    intro hmem
    have h1 := ih (fun j hj => hmem j (by omega))
    have h2 : monthOf o (d + n + 1) = monthOf o (d + n) := by
      have ha := hmem (n + 1) (le_refl _)
      have hb := hmem n (by omega)
      have hc : ((n : ℤ) + 1) = ((n + 1 : ℕ) : ℤ) := by push_cast; ring
      calc monthOf o (d + n + 1) = monthOf o (d + ((n : ℤ) + 1)) := by ring_nf
        _ = monthOf o d := by rw [hc]; exact ha
        _ = monthOf o (d + n) := hb.symm
    have h3 := h.next_day (d + n) h2
    have hc : ((n + 1 : ℕ) : ℤ) = (n : ℤ) + 1 := by push_cast; ring
    rw [hc, ← add_assoc]
    omega

lemma dayOne_unique {o : ℤ → Hijri} (h : GoodOracle o) {x s : ℤ}
    (hm : monthOf o x = monthOf o s)
    (hx : (o x).day = 1) (hs : (o s).day = 1) : x = s := by
  rcases lt_trichotomy x s with hlt | heq | hgt
  · exfalso
    have hconv := h.convex x (s - 1) s (by omega) (by omega) hm
    have := (h.day_one_iff s).mp hs
    exact this (hconv.trans hm)
  · exact heq
  · exfalso
    have hconv := h.convex s (x - 1) x (by omega) (by omega) hm.symm
    have := (h.day_one_iff x).mp hx
    exact this (hconv.trans hm.symm)

lemma resolveMonth_spec {o : ℤ → Hijri} (h : GoodOracle o) (today : ℤ) :
    ∃ rng : MonthRange,
      resolveMonth o 35 today = some rng ∧
      rng.start = today - ((o today).day - 1) ∧
      (o rng.start).day = 1 ∧
      monthOf o rng.start = monthOf o today ∧
      rng.start ≤ rng.endD ∧
      monthOf o (rng.endD + 1) ≠ monthOf o rng.start ∧
      (∀ x, rng.start ≤ x → x ≤ rng.endD → monthOf o x = monthOf o rng.start) ∧
      rng.hijriYear = (o today).year ∧ rng.hijriMonth = (o today).month := by
  have hdle := h.day_le today
  have hdpos := h.day_pos today
  obtain ⟨hst, hmeq, hday1⟩ := findStart_spec h 35 today (by omega)
  set s := today - ((o today).day - 1) with hs
  have hy : (o s).year = (o today).year := congrArg Prod.fst hmeq
  have hmm : (o s).month = (o today).month := congrArg Prod.snd hmeq
  obtain ⟨e, he, hse, hend, hall⟩ :=
    findEnd_spec h (o today).year (o today).month 35 s hy hmm (by omega)
  have hpair : ((o today).year, (o today).month) = monthOf o s := hmeq.symm
  refine ⟨⟨s, e, (o today).year, (o today).month⟩, ?_, rfl, hday1, hmeq, hse,
    ?_, ?_, rfl, rfl⟩
  · simp only [resolveMonth, hst, he]
  · rw [← hpair]
    exact hend
  · intro x h1 h2
    rw [hall x h1 h2]
    exact hpair

lemma scriptFindStart_aux {o : ℤ → Hijri} (h : GoodOracle o) (y m : ℤ) :
    ∀ fuel : ℕ, ∀ d : ℤ, (o d).year = y → (o d).month = m →
      ((o d).day).toNat ≤ fuel →
      scriptFindStart o y m fuel d = some (d - ((o d).day - 1)) := by
  intro fuel
  induction fuel with
  | zero =>
    intro d hy hm hf
    exfalso
    have := h.day_pos d
    omega
  | succ n ih =>
    intro d hy hm hf
    by_cases h1 : (o d).day = 1
    · have hz : d - ((o d).day - 1) = d := by omega
      rw [hz]
      simp [scriptFindStart, hy, hm, h1]
    · have hgt : 1 < (o d).day := by have := h.day_pos d; omega
      have hmm := h.prev_month d hgt
      have hdy := h.prev_day d hgt
      have hy' : (o (d - 1)).year = y := (congrArg Prod.fst hmm).trans hy
      have hm' : (o (d - 1)).month = m := (congrArg Prod.snd hmm).trans hm
      have hrec := ih (d - 1) hy' hm' (by omega)
      have he : (d - 1) - ((o (d - 1)).day - 1) = d - ((o d).day - 1) := by omega
      rw [he] at hrec
      simp only [scriptFindStart, hy, hm, and_self, if_true, h1, if_false]
      exact hrec

lemma calculateWorkdays_card (W : List ℤ) :
    ∀ n : ℕ, ∀ s e : ℤ, (e + 1 - s).toNat ≤ n →
      calculateWorkdays W s e =
        ((Finset.Icc s e).filter (fun d => getDay d ∉ W)).card := by
  intro n
  induction n with
  | zero =>
    intro s e hn
    have hse : ¬ s ≤ e := by omega
    rw [calculateWorkdays, dif_neg hse, Finset.Icc_eq_empty hse]
    simp
  | succ n ih =>
    intro s e hn
    by_cases hse : s ≤ e
    · rw [calculateWorkdays, dif_pos hse]
      have hicc : Finset.Icc s e = insert s (Finset.Icc (s + 1) e) := by
        ext x
        simp only [Finset.mem_insert, Finset.mem_Icc]
        omega
      have hnot : s ∉ Finset.filter (fun d => getDay d ∉ W) (Finset.Icc (s + 1) e) := by
        simp only [Finset.mem_filter, Finset.mem_Icc]
        omega
      rw [hicc, Finset.filter_insert, ih (s + 1) e (by omega)]
      by_cases hw : getDay s ∈ W
      · have hb : W.contains (getDay s) = true := by simpa using hw
        rw [if_pos hb, if_neg (by simpa using hw)]
        simp
      · have hb : ¬ (W.contains (getDay s) = true) := by simpa using hw
        rw [if_neg hb, if_pos (by simpa using hw), Finset.card_insert_of_not_mem hnot]
        omega
    · rw [calculateWorkdays, dif_neg hse, Finset.Icc_eq_empty hse]
      simp

/-- One entry of the persisted usage history of script.js: the permission
type (`'Late Arrival'` / `'Early Departure'`) and the ISO timestamp string. -/
structure LogEntry where
  type : String
  timestamp : String
deriving DecidableEq

/-- The mutable state of script.js touched by `logPermission`: the module
variables `permissionsUsed` and `historyLog`, plus the localStorage value
written by `saveData` (`none` models an absent key). -/
structure ScriptState where
  permissionsUsed : ℕ
  historyLog : List LogEntry
  stored : Option (ℕ × List LogEntry)
deriving DecidableEq

/-- `MAX_PERMISSIONS` of script.js (`TOTAL_PERMISSIONS` in the unnamed
core file). -/
def MAX_PERMISSIONS : ℕ := 10

/-- `saveData` of script.js: persist the current counters to localStorage. -/
def saveData (st : ScriptState) : ScriptState :=
  { st with stored := some (st.permissionsUsed, st.historyLog) }

/-- `logPermission` of script.js: when fewer than `MAX_PERMISSIONS`
permissions are used, increment the counter, append a history entry and
persist; otherwise leave the state untouched (the source only warns on the
console and hides the dialog). -/
def logPermission (type : String) (now : String) (st : ScriptState) : ScriptState :=
  if st.permissionsUsed < MAX_PERMISSIONS then
    saveData
      { st with
        permissionsUsed := st.permissionsUsed + 1,
        historyLog := st.historyLog ++ [⟨type, now⟩] }
  else st

/-- C1: under a well-formed oracle (Hijri months are contiguous 29-30-day
runs, so a Hijri day 1 lies within 30 days before any reference date), the
backward month-start search returns, within 30 backward steps, the unique
Gregorian date of the reference date's Hijri month whose Hijri day is 1;
in particular, when the reference date's own Hijri day is already 1 the
search returns the reference date itself. -/
theorem C1_findMonthStart_correct (o : ℤ → Hijri) (d : ℤ) (h : GoodOracle o) :
    ∃ s, findHijriMonthStart o 30 d = some s ∧
      monthOf o s = monthOf o d ∧ (o s).day = 1 ∧
      (∀ x, monthOf o x = monthOf o d → (o x).day = 1 → x = s) ∧
      ((o d).day = 1 → s = d) := by
  have h1 := h.day_pos d
  have h2 := h.day_le d
  obtain ⟨hst, hmeq, hday⟩ := findStart_spec h 30 d (by omega)
  refine ⟨d - ((o d).day - 1), hst, hmeq, hday, ?_, ?_⟩
  · intro x hx hx1
    exact dayOne_unique h (hx.trans hmeq.symm) hx1 hday
  · intro hd1
    omega

theorem C1_witness :
    ∃ s, findHijriMonthStart stdOracle 30 7 = some s ∧
      monthOf stdOracle s = monthOf stdOracle 7 ∧ (stdOracle s).day = 1 ∧
      (∀ x, monthOf stdOracle x = monthOf stdOracle 7 →
        (stdOracle x).day = 1 → x = s) ∧
      ((stdOracle 7).day = 1 → s = 7) :=
  C1_findMonthStart_correct stdOracle 7 stdOracle_good

/-- C2: under a well-formed oracle, every range `[start, end]` returned by
month resolution has Hijri day 1 at `start`, a Hijri (year, month) change
between `end` and `end + 1`, and a constant Hijri (year, month) on every day
from `start` to `end` inclusive. -/
theorem C2_resolved_range (o : ℤ → Hijri) (today : ℤ) (r : MonthRange)
    (h : GoodOracle o) (hr : resolveMonth o 35 today = some r) :
    (o r.start).day = 1 ∧
    monthOf o (r.endD + 1) ≠ monthOf o r.endD ∧
    ∀ x, r.start ≤ x → x ≤ r.endD → monthOf o x = monthOf o r.start := by
  obtain ⟨rng, hrng, _, hday1, _, hse, hend, hall, _, _⟩ := resolveMonth_spec h today
  rw [hr] at hrng
  injection hrng with hrr
  subst hrr
  refine ⟨hday1, ?_, hall⟩
  rw [hall r.endD hse (le_refl _)]
  exact hend

theorem C2_witness :
    (stdOracle (30 : ℤ)).day = 1 ∧
    monthOf stdOracle ((59 : ℤ) + 1) ≠ monthOf stdOracle 59 ∧
    ∀ x, (30 : ℤ) ≤ x → x ≤ 59 → monthOf stdOracle x = monthOf stdOracle 30 :=
  C2_resolved_range stdOracle 45 ⟨30, 59, 1447, 1⟩ stdOracle_good (by decide)

/-- C3: the code has no iteration cap and no BoundaryNotFound error path:
under the stub oracle that never advances the Hijri month, the month-end
loop of the source never exits — for every fuel bound (in particular 35) it
is still running — so resolution loops unboundedly instead of failing with
BoundaryNotFound; a 30-day month, by contrast, completes within 35 probes. -/
theorem C3_no_iteration_cap :
    (∀ fuel : ℕ, ∀ d : ℤ, findHijriMonthEnd stuckOracle 1447 8 fuel d = none) ∧
    findHijriMonthEnd stdOracle 1447 0 35 0 = some 29 := by
  constructor
  · intro fuel
    induction fuel with
    | zero => intro d; rfl
    | succ n ih =>
      intro d
      simp only [findHijriMonthEnd, stuckOracle, ne_eq]
      rw [if_neg (by norm_num)]
      exact ih (d + 1)
  · decide

/-- C4: for every weekend set `W` and dates `start ≤ end`, the workday count
equals the number of days `d` with `start ≤ d ≤ end` whose weekday index is
not a member of `W`. -/
theorem C4_workday_count (W : List ℤ) (s e : ℤ) (h : s ≤ e) :
    calculateWorkdays W s e =
      ((Finset.Icc s e).filter (fun d => getDay d ∉ W)).card :=
  calculateWorkdays_card W (e + 1 - s).toNat s e (le_refl _)

theorem C4_witness :
    (0 : ℤ) ≤ 29 ∧
    calculateWorkdays [5, 6] 0 29 =
      ((Finset.Icc (0 : ℤ) 29).filter (fun d => getDay d ∉ [(5 : ℤ), 6])).card :=
  ⟨by decide, C4_workday_count [5, 6] 0 29 (by decide)⟩

/-- C5: for dates `start ≤ end`, the workday count with an empty weekend set
equals the inclusive day count `end - start + 1`. -/
theorem C5_empty_weekend (s e : ℤ) (h : s ≤ e) :
    calculateWorkdays [] s e = (e - s + 1).toNat := by
  rw [calculateWorkdays_card [] (e + 1 - s).toNat s e (le_refl _)]
  have hmem : ∀ d ∈ Finset.Icc s e, getDay d ∉ ([] : List ℤ) := by simp
  rw [Finset.filter_true_of_mem hmem, Int.card_Icc]
  omega

theorem C5_witness :
    (0 : ℤ) ≤ 6 ∧ calculateWorkdays [] 0 6 = ((6 : ℤ) - 0 + 1).toNat :=
  ⟨by decide, C5_empty_weekend 0 6 (by decide)⟩

/-- C6: the month-start search is idempotent: for every date `x` inside the
Hijri month resolved from a reference date `r` (between the returned start
and the month's last day), the month-start search from `x` yields the same
start date as the search from `r`. -/
theorem C6_idempotent (o : ℤ → Hijri) (r x : ℤ) (rng : MonthRange)
    (h : GoodOracle o) (hr : resolveMonth o 35 r = some rng)
    (hx1 : rng.start ≤ x) (hx2 : x ≤ rng.endD) :
    findHijriMonthStart o 35 x = findHijriMonthStart o 35 r := by
  obtain ⟨rng', hrng', hstart, hday1, _, hse, _, hall, _, _⟩ := resolveMonth_spec h r
  rw [hr] at hrng'
  injection hrng' with hrr
  subst hrr
  have hmonmem : ∀ k : ℕ, (rng.start + k ≤ rng.endD) →
      ∀ j : ℕ, j ≤ k → monthOf o (rng.start + j) = monthOf o rng.start :=
    fun k hk j hj => hall (rng.start + j) (by omega) (by omega)
  -- the day number at the month's last day bounds the month length by 30
  have hk2 : (rng.endD - rng.start).toNat ≤ 29 := by
    have hd2 := day_add h rng.start (rng.endD - rng.start).toNat
      (hmonmem (rng.endD - rng.start).toNat (by omega))
    have hle := h.day_le (rng.start + ((rng.endD - rng.start).toNat : ℤ))
    omega
  -- the day number at x
  have hdx := day_add h rng.start (x - rng.start).toNat
    (hmonmem (x - rng.start).toNat (by omega))
  have hxeq : rng.start + ((x - rng.start).toNat : ℤ) = x := by omega
  rw [hxeq] at hdx
  have hxday : (o x).day = 1 + (x - rng.start) := by omega
  have hdler := h.day_le r
  have hdposr := h.day_pos r
  obtain ⟨hstx, _, _⟩ := findStart_spec h 35 x (by omega)
  obtain ⟨hstr, _, _⟩ := findStart_spec h 35 r (by omega)
  rw [hstx, hstr, ← hstart]
  have : x - ((o x).day - 1) = rng.start := by omega
  rw [this]

theorem C6_witness :
    findHijriMonthStart stdOracle 35 50 = findHijriMonthStart stdOracle 35 45 :=
  C6_idempotent stdOracle 45 50 ⟨30, 59, 1447, 1⟩ stdOracle_good (by decide)
    (by decide) (by decide)

/-- C7: under a well-formed oracle, both searches are total within a 30-step
fuel bound: the backward month-start search and the forward month-end search
(probing from any date of the month, with that date's Hijri year and month)
each return a result with fuel 30. -/
theorem C7_bounded_termination (o : ℤ → Hijri) (d : ℤ) (h : GoodOracle o) :
    (findHijriMonthStart o 30 d).isSome = true ∧
    (findHijriMonthEnd o (o d).year (o d).month 30 d).isSome = true := by
  have h1 := h.day_pos d
  have h2 := h.day_le d
  obtain ⟨hst, _, _⟩ := findStart_spec h 30 d (by omega)
  obtain ⟨e, he, _, _, _⟩ := findEnd_spec h (o d).year (o d).month 30 d rfl rfl (by omega)
  rw [hst, he]
  exact ⟨rfl, rfl⟩

theorem C7_witness :
    (findHijriMonthStart stdOracle 30 7).isSome = true ∧
    (findHijriMonthEnd stdOracle (stdOracle 7).year (stdOracle 7).month 30 7).isSome = true :=
  C7_bounded_termination stdOracle 7 stdOracle_good

/-- C8: the two month-start search variants agree: under a well-formed
oracle, the backward-only search of the unnamed core file and the
overshoot-and-correct search of script.js (seeded with the reference date's
Hijri year and month, as script.js does) return the same month start. -/
theorem C8_variants_agree (o : ℤ → Hijri) (d : ℤ) (h : GoodOracle o) :
    scriptFindStart o (o d).year (o d).month 30 d = findHijriMonthStart o 30 d := by
  have h1 := h.day_pos d
  have h2 := h.day_le d
  have ha := scriptFindStart_aux h (o d).year (o d).month 30 d rfl rfl (by omega)
  obtain ⟨hst, _, _⟩ := findStart_spec h 30 d (by omega)
  rw [ha, hst]

theorem C8_witness :
    scriptFindStart stdOracle (stdOracle 45).year (stdOracle 45).month 30 45 =
      findHijriMonthStart stdOracle 30 45 :=
  C8_variants_agree stdOracle 45 stdOracle_good

/-- C9: for the fixed stub oracle in which Hijri day 1 of month 9 (of 1447)
falls on Gregorian day 0 and the month has exactly 29 days, resolving with
today = 0 + 15 returns start = 0, end = 0 + 28 and Hijri month 9. -/
theorem C9_stub_scenario :
    resolveMonth oracle29 35 (0 + 15) = some ⟨0, 0 + 28, 1447, 9⟩ := by
  decide

/-- C10: the used-permissions count never exceeds MAX_PERMISSIONS (10):
from any state satisfying the bound, logging a permission preserves it, and
when the count already equals the maximum the whole state — counter, history
log and persisted localStorage value — is left unchanged. -/
theorem C10_quota_invariant (st : ScriptState) (ty now : String)
    (h : st.permissionsUsed ≤ MAX_PERMISSIONS) :
    (logPermission ty now st).permissionsUsed ≤ MAX_PERMISSIONS ∧
    (st.permissionsUsed = MAX_PERMISSIONS → logPermission ty now st = st) := by
  constructor
  · by_cases hc : st.permissionsUsed < MAX_PERMISSIONS
    · simp only [logPermission, if_pos hc, saveData]
      exact hc
    · simp only [logPermission, if_neg hc]
      exact h
  · intro h10
    have hc : ¬ st.permissionsUsed < MAX_PERMISSIONS := by omega
    simp only [logPermission, if_neg hc]

theorem C10_witness :
    (⟨10, [], none⟩ : ScriptState).permissionsUsed ≤ MAX_PERMISSIONS ∧
    ((logPermission "Late Arrival" "2026-01-01T08:00:00Z" ⟨10, [], none⟩).permissionsUsed ≤
        MAX_PERMISSIONS ∧
      ((⟨10, [], none⟩ : ScriptState).permissionsUsed = MAX_PERMISSIONS →
        logPermission "Late Arrival" "2026-01-01T08:00:00Z" ⟨10, [], none⟩ =
          ⟨10, [], none⟩)) :=
  ⟨by decide,
    C10_quota_invariant ⟨10, [], none⟩ "Late Arrival" "2026-01-01T08:00:00Z" (by decide)⟩
